import Mathlib

/-!
Verification of the bin2png codec (src/bin2png_lanczos.py).

The development embeds the three core components of the program:

* `choose_file_dimensions` — the dimension planner (lines 76 to 123);
* `file_to_png`             — the encoder packing bytes into an RGB pixel
  grid in raster order (lines 126 to 178);
* `png_to_file`             — the decoder reading the grid back in the same
  raster order with the pending zero run heuristic (lines 180 to 221).

Bytes are modelled as natural numbers (the source reads them as integers in
the range 0 to 255; no arithmetic overflows anywhere, so no modular
reduction is needed).  A pixel grid is a list of rows, each row a list of
RGB triples, exactly the addressing `pixels[column, row]` of the source.
Fallible steps return `Except EncodeError` or `Option`.
-/

namespace Bin2png

/-- An RGB pixel: the three channel values, in the order R, G, B. -/
abbrev Pixel := Nat × Nat × Nat

/-- The pixel grid: a list of `height` rows, each a list of `width` pixels.
Entry `(g.getD row []).getD col (0,0,0)` is `pixels[col, row]` of the source. -/
abbrev Grid := List (List Pixel)

/-! ## Dimension planner (`choose_file_dimensions`, lines 76 to 123) -/

/-- The largest `s ≤ i` with `s * s ≤ p` (and `0` when no positive such `s`
exists). -/
def floorSqrtLE (p : Nat) : Nat → Nat
  | 0 => 0
  | i + 1 => if (i + 1) * (i + 1) ≤ p then i + 1 else floorSqrtLE p i

/-- The floor of the square root of `p` (the square root never exceeds its
argument, so searching below `p` suffices). -/
def floorSqrt (p : Nat) : Nat := floorSqrtLE p p

/-- `int(math.ceil(math.sqrt(p)))` at line 84 to 85 of the source, with exact
integer arithmetic in place of floating point. -/
def ceilSqrt (p : Nat) : Nat :=
  if floorSqrt p * floorSqrt p = p then floorSqrt p else floorSqrt p + 1

/-- The descending search of lines 104 to 117: candidate widths `i` run from
`sqrtMax` down to `1`; a candidate is recorded together with its
`extra_bytes` value when it covers `numPixels` and strictly improves on the
recorded one; the loop stops at the first `i` that divides `numPixels`
evenly.  The final `best_dimensions` is returned (`none` when the loop never
recorded a candidate: the source then faults at line 118 comparing
`best_extra_bytes`, which is still `None`, against `0`, so no dimensions are
ever produced).  It is split below into `plannerImproves` (the improvement
test), `plannerUpdate` (the candidate recording) and `plannerLoop` (the
descent itself). -/
def plannerImproves (extraBytes : Nat) : Option ((Nat × Nat) × Nat) → Bool
  | none => true
  | some de => decide (extraBytes < de.2)

/-- Lines 112 to 115: record `dims` together with its
`extra_bytes = dims.1 * dims.2 * 3 - num_bytes` when it covers `numPixels`
and strictly improves on the recorded best. -/
def plannerUpdate (numPixels numBytes : Nat) (dims : Nat × Nat)
    (best : Option ((Nat × Nat) × Nat)) : Option ((Nat × Nat) × Nat) :=
  if numPixels ≤ dims.1 * dims.2 ∧ plannerImproves (dims.1 * dims.2 * 3 - numBytes) best
  then some (dims, dims.1 * dims.2 * 3 - numBytes)
  else best

def plannerLoop (numPixels numBytes : Nat) : Nat → Option ((Nat × Nat) × Nat) → Option (Nat × Nat)
  | 0, best => best.map Prod.fst
  | i + 1, best =>
    if numPixels % (i + 1) = 0 then
      (plannerUpdate numPixels numBytes (i + 1, numPixels / (i + 1)) best).map Prod.fst
    else
      plannerLoop numPixels numBytes i
        (plannerUpdate numPixels numBytes (i + 1, numPixels / (i + 1) + 1) best)

/-- `choose_file_dimensions` (lines 76 to 123).  `input_dimensions` mirrors
the `dims` tuple built by `main`: `none` when neither restriction is given,
otherwise a pair of optional width and height.  `none` as a result means the
source produces no dimensions: at `numBytes = 0` with no constraints the
loop never runs and line 118 faults comparing `None` with `0`; an explicit
single dimension of `0` faults in `num_pixels % dimension` at line 93 or 99
(division by zero). -/
def choose_file_dimensions (numBytes : Nat)
    (input_dimensions : Option (Option Nat × Option Nat)) (square : Bool) :
    Option (Nat × Nat) :=
  match input_dimensions with
  | some (some w, some h) => some (w, h)
  | _ =>
    let numPixels := (numBytes + 2) / 3
    let sqrtMax := ceilSqrt numPixels
    if square then some (sqrtMax, sqrtMax)
    else
      match input_dimensions with
      | some (some w, _) =>
          if w = 0 then none
          else if numPixels % w = 0 then some (w, numPixels / w)
          else some (w, numPixels / w + 1)
      | some (none, some h) =>
          if h = 0 then none
          else if numPixels % h = 0 then some (numPixels / h, h)
          else some (numPixels / h + 1, h)
      | some (none, none) => none
      | none => plannerLoop numPixels numBytes sqrtMax none

/-! ## Encoder (`file_to_png`, lines 126 to 178) -/

/-- The successive results of `reader.read(3)` in the encode loop: chunks of
three bytes, the last one possibly shorter (one or two bytes), never empty. -/
def chunk3 : List Nat → List (List Nat)
  | [] => []
  | [a] => [[a]]
  | [a, b] => [[a, b]]
  | a :: b :: c :: rest => [a, b, c] :: chunk3 rest

/-- Lines 150 to 154: `color = [b[0], 0, 0]`, then `color[1] = b[1]` when a
second byte was read and `color[2] = b[2]` when a third was. -/
def colorOf (b : List Nat) : Pixel :=
  (b.headD 0, (b.drop 1).headD 0, (b.drop 2).headD 0)

/-- `pixels[column, row] = tuple(color)` at line 157. -/
def setPixel (g : Grid) (col row : Nat) (p : Pixel) : Grid :=
  g.set row ((g.getD row []).set col p)

/-- The encode loop of lines 134 to 157.  The source initialises `column`
to `-1` and increments it at the top of each iteration; we carry
`colNext = column + 1` so the state stays in `Nat`.  When the incremented
column reaches the width the cursor wraps to column `0` of the next row, and
if that row index reaches the height the source raises the capacity
exception of line 148, modelled as `none`.  The write at line 157 is guarded
by `if not row >= img.size[1]` exactly as in the source. -/
def encodeLoop (w h : Nat) : List (List Nat) → Nat → Nat → Grid → Option Grid
  | [], _, _, g => some g
  | b :: bs, colNext, row, g =>
    if w ≤ colNext then
      let row' := row + 1
      if h ≤ row' then none
      else
        let g' := if h ≤ row' then g else setPixel g 0 row' (colorOf b)
        encodeLoop w h bs 1 row' g'
    else
      let g' := if h ≤ row then g else setPixel g colNext row (colorOf b)
      encodeLoop w h bs (colNext + 1) row g'

/-- `Image.new('RGB', dim)`: a grid of `h` rows of `w` black pixels. -/
def mkGrid (w h : Nat) : Grid := List.replicate h (List.replicate w (0, 0, 0))

/-- How an encode invocation can fail. -/
inductive EncodeError where
  /-- The planner produced no dimensions (see `choose_file_dimensions`):
  the source faults before any pixel is written. -/
  | dimensionFault : EncodeError
  /-- The exception of line 148: the row cursor reached the image height
  while bytes remained. -/
  | capacityExceeded : EncodeError
deriving DecidableEq

instance {ε α : Type} [DecidableEq ε] [DecidableEq α] : DecidableEq (Except ε α) := fun x y =>
  match x, y with
  | .error a, .error b =>
    if h : a = b then isTrue (by rw [h])
    else isFalse (by intro hc; injection hc; exact h (by assumption))
  | .error _, .ok _ => isFalse (by intro hc; exact Except.noConfusion hc)
  | .ok _, .error _ => isFalse (by intro hc; exact Except.noConfusion hc)
  | .ok a, .ok b =>
    if h : a = b then isTrue (by rw [h])
    else isFalse (by intro hc; injection hc; exact h (by assumption))

/-- `file_to_png` (lines 126 to 163): plan the dimensions, then run the
encode loop on a fresh black grid.  The result is the image committed by
`img.save` at line 163. -/
def file_to_png (bytes : List Nat)
    (dimensions : Option (Option Nat × Option Nat)) (square : Bool) :
    Except EncodeError Grid :=
  match choose_file_dimensions bytes.length dimensions square with
  | none => .error .dimensionFault
  | some (w, h) =>
    match encodeLoop w h (chunk3 bytes) 0 0 (mkGrid w h) with
    | none => .error .capacityExceeded
    | some g => .ok g

/-- Observable images of a full `file_to_png` call including the Lanczos
block (lines 161 to 178): the first component is the image committed to the
output by `img.save` at line 163; the second is the final value of the local
`img` variable after the optional resize of lines 166 to 177, which the
function then discards (it returns nothing).  `resize` abstracts the
external `cv2.resize` call with Lanczos interpolation. -/
def file_to_png_with_resize (resize : Grid → Grid) (bytes : List Nat)
    (dimensions : Option (Option Nat × Option Nat)) (square use_lanczos : Bool) :
    Except EncodeError (Grid × Grid) :=
  (file_to_png bytes dimensions square).map
    (fun img => (img, if use_lanczos then resize img else img))

/-! ## Decoder (`png_to_file`, lines 180 to 221) -/

/-- `for segment in pixel`: the channel values of one pixel in R, G, B
order. -/
def pixelChannels (p : Pixel) : List Nat := [p.1, p.2.1, p.2.2]

/-- The channel values of the whole grid in the traversal order of
lines 186 to 197: rows top to bottom, columns left to right within a row,
channels R, G, B within a pixel. -/
def gridChannels (g : Grid) : List Nat := (g.map (fun r => (r.map pixelChannels).flatten)).flatten

/-- The byte emission loop of lines 197 to 212, with `buf` the running
`pix_buffer`: a zero channel only increments the buffer; a non zero channel
first flushes `buf` zero bytes, then is written itself.  At the end of the
stream a non zero buffer is discarded (lines 216 to 221 only report it). -/
def decodeChannels : List Nat → Nat → List Nat
  | [], _ => []
  | c :: rest, buf =>
    if c = 0 then decodeChannels rest (buf + 1)
    else List.replicate buf 0 ++ c :: decodeChannels rest 0

/-- `png_to_file` (lines 180 to 221): read every channel of the grid in
raster order through the pending zero run filter, starting with an empty
buffer. -/
def png_to_file (g : Grid) : List Nat := decodeChannels (gridChannels g) 0

/-! ## Reference notions used to state the claims -/

/-- A byte sequence with its maximal trailing run of zero bytes removed
(the reference semantics the round trip claims are stated against). -/
def stripTrailingZeros : List Nat → List Nat
  | [] => []
  | c :: rest =>
    match stripTrailingZeros rest with
    | [] => if c = 0 then [] else [c]
    | r => c :: r

/-- The largest divisor of `P` that is at most `i` (and `0` when there is
none, which only happens for `i = 0`). -/
def largestDivisorLE (P : Nat) : Nat → Nat
  | 0 => 0
  | i + 1 => if P % (i + 1) = 0 then i + 1 else largestDivisorLE P i

/-! ## Decoder lemmas -/

lemma stripTrailingZeros_getLast? (l : List Nat) :
    (stripTrailingZeros l).getLast? ≠ some 0 := by
  induction l with
  | nil => simp [stripTrailingZeros]
  | cons c rest ih =>
    simp only [stripTrailingZeros]
    cases hr : stripTrailingZeros rest with
    | nil =>
      by_cases hc : c = 0 <;> simp [hc]
    | cons x xs =>
      rw [hr] at ih
      simpa [List.getLast?_cons_cons] using ih

/-- The byte emission loop, run with pending buffer `buf`, emits the stream
with its maximal trailing zero run removed, preceded by the `buf` buffered
zeros when anything is emitted at all. -/
lemma decodeChannels_eq_strip (cs : List Nat) : ∀ buf,
    decodeChannels cs buf =
      if stripTrailingZeros cs = [] then []
      else List.replicate buf 0 ++ stripTrailingZeros cs := by
  induction cs with
  | nil => intro buf; simp [decodeChannels, stripTrailingZeros]
  | cons c rest ih =>
    intro buf
    by_cases hc : c = 0
    · subst hc
      rw [show decodeChannels (0 :: rest) buf = decodeChannels rest (buf + 1) from rfl,
        ih (buf + 1)]
      simp only [stripTrailingZeros]
      cases hr : stripTrailingZeros rest with
      | nil => simp
      | cons x xs =>
        simp [List.replicate_succ' buf, List.append_assoc]
    · rw [show decodeChannels (c :: rest) buf
          = List.replicate buf 0 ++ c :: decodeChannels rest 0 by
        simp [decodeChannels, hc], ih 0]
      simp only [stripTrailingZeros]
      cases hr : stripTrailingZeros rest with
      | nil => simp [hc]
      | cons x xs => simp

/-- `png_to_file` strips the maximal trailing zero run from the channel
stream of the grid. -/
lemma png_to_file_eq_strip (g : Grid) :
    png_to_file g = stripTrailingZeros (gridChannels g) := by
  rw [png_to_file, decodeChannels_eq_strip]
  by_cases h : stripTrailingZeros (gridChannels g) = [] <;> simp [h]

lemma stripTrailingZeros_replicate_zero (m : Nat) :
    stripTrailingZeros (List.replicate m 0) = [] := by
  induction m with
  | zero => rfl
  | succ n ih => simp [List.replicate_succ, stripTrailingZeros, ih]

lemma stripTrailingZeros_append_replicate (B : List Nat) (m : Nat) :
    stripTrailingZeros (B ++ List.replicate m 0) = stripTrailingZeros B := by
  induction B with
  | nil => simpa using stripTrailingZeros_replicate_zero m
  | cons c rest ih => simp [stripTrailingZeros, ih]

lemma stripTrailingZeros_eq_self (B : List Nat) (h : B.getLast? ≠ some 0) :
    stripTrailingZeros B = B := by
  induction B with
  | nil => rfl
  | cons c rest ih =>
    cases rest with
    | nil =>
      simp only [List.getLast?_singleton, ne_eq, Option.some.injEq] at h
      simp [stripTrailingZeros, h]
    | cons d tl =>
      rw [List.getLast?_cons_cons] at h
      have hrest := ih h
      rw [show stripTrailingZeros (c :: d :: tl)
          = (match stripTrailingZeros (d :: tl) with
             | [] => if c = 0 then [] else [c]
             | r => c :: r) from rfl, hrest]

lemma gridChannels_eq (g : Grid) :
    gridChannels g = (g.flatten.map pixelChannels).flatten := by
  induction g with
  | nil => rfl
  | cons r rest ih =>
    simp [gridChannels, List.map_append, List.flatten_append] at ih ⊢
    exact ih

lemma flatten_map_replicate_zeroPixel (m : Nat) :
    ((List.replicate m ((0, 0, 0) : Pixel)).map pixelChannels).flatten
      = List.replicate (3 * m) 0 := by
  induction m with
  | zero => rfl
  | succ n ih =>
    rw [List.replicate_succ, List.map_cons, List.flatten_cons, ih,
      show 3 * (n + 1) = 3 + 3 * n by ring, List.replicate_add]
    rfl

/-! ## Square root and divisor lemmas -/

lemma floorSqrtLE_sq_le (p : Nat) : ∀ i, floorSqrtLE p i * floorSqrtLE p i ≤ p := by
  intro i
  induction i with
  | zero => simp [floorSqrtLE]
  | succ n ih =>
    rw [floorSqrtLE]
    split
    · assumption
    · exact ih

lemma le_floorSqrtLE (p : Nat) : ∀ i s, s ≤ i → s * s ≤ p → s ≤ floorSqrtLE p i := by
  intro i
  induction i with
  | zero => intro s hs _; omega
  | succ n ih =>
    intro s hs hsq
    rw [floorSqrtLE]
    split
    · exact hs
    · rename_i hcond
      have hsn : s ≤ n := by
        rcases Nat.lt_or_ge s (n + 1) with h | h
        · omega
        · exact absurd (le_antisymm hs h ▸ hsq) hcond
      exact ih s hsn hsq

lemma lt_succ_floorSqrt (p : Nat) :
    p < (floorSqrt p + 1) * (floorSqrt p + 1) := by
  by_contra hcon
  push_neg at hcon
  have h1 : floorSqrt p + 1 ≤ (floorSqrt p + 1) * (floorSqrt p + 1) :=
    Nat.le_mul_of_pos_left _ (Nat.succ_pos _)
  have h2 : floorSqrt p + 1 ≤ floorSqrt p :=
    le_floorSqrtLE p p (floorSqrt p + 1) (h1.trans hcon) hcon
  omega

lemma le_ceilSqrt_sq (p : Nat) : p ≤ ceilSqrt p * ceilSqrt p := by
  rw [ceilSqrt]
  split
  · omega
  · exact (lt_succ_floorSqrt p).le

lemma ceilSqrt_pos (p : Nat) (hp : 0 < p) : 0 < ceilSqrt p := by
  rw [ceilSqrt]
  split
  · rename_i h
    rcases Nat.eq_zero_or_pos (floorSqrt p) with h0 | h0
    · rw [h0] at h; omega
    · exact h0
  · omega

lemma largestDivisorLE_spec (P : Nat) : ∀ i, 0 < i →
    0 < largestDivisorLE P i ∧ largestDivisorLE P i ≤ i ∧
      P % largestDivisorLE P i = 0 ∧
      ∀ d, 0 < d → d ≤ i → P % d = 0 → d ≤ largestDivisorLE P i := by
  intro i
  induction i with
  | zero => intro h; exact absurd h (lt_irrefl 0)
  | succ n ih =>
    intro _
    by_cases hdvd : P % (n + 1) = 0
    · rw [largestDivisorLE, if_pos hdvd]
      exact ⟨by omega, le_refl _, hdvd, fun d _ hdn _ => hdn⟩
    · have hn : 0 < n := by
        rcases Nat.eq_zero_or_pos n with h0 | h0
        · subst h0; exact absurd (Nat.mod_one P) hdvd
        · exact h0
      obtain ⟨h1, h2, h3, h4⟩ := ih hn
      rw [largestDivisorLE, if_neg hdvd]
      refine ⟨h1, h2.trans (Nat.le_succ n), h3, ?_⟩
      intro d hd hdn hdP
      have : d ≤ n := by
        rcases Nat.lt_or_ge d (n + 1) with h | h
        · omega
        · exact absurd (le_antisymm hdn h ▸ hdP) hdvd
      exact h4 d hd this hdP

/-! ## Planner loop lemmas -/

/-- Rounding the height up always overshoots the pixel count strictly. -/
lemma lt_mul_div_succ (P w : Nat) (hw : 0 < w) :
    P + 1 ≤ w * (P / w + 1) := by
  have hdm := Nat.div_add_mod P w
  have hlt : P % w < w := Nat.mod_lt _ hw
  rw [Nat.mul_succ]
  omega

/-- Every candidate the descending search records before it hits a divisor
carries at least 3 extra bytes, while a divisor candidate carries at most 2;
the search therefore stops at the first divisor it meets, which is the
largest divisor of `(numBytes + 2) / 3` not exceeding the starting width. -/
lemma plannerLoop_eq (nb : Nat) :
    ∀ i best, 0 < i →
      (∀ de, best = some de → 3 ≤ de.2) →
      plannerLoop ((nb + 2) / 3) nb i best
        = some (largestDivisorLE ((nb + 2) / 3) i,
            (nb + 2) / 3 / largestDivisorLE ((nb + 2) / 3) i) := by
  intro i
  induction i with
  | zero => intro best h; exact absurd h (lt_irrefl 0)
  | succ n ih =>
    intro best _ hbest
    by_cases hdvd : (nb + 2) / 3 % (n + 1) = 0
    · rw [plannerLoop, if_pos hdvd, largestDivisorLE, if_pos hdvd]
      have hmul : (n + 1) * ((nb + 2) / 3 / (n + 1)) = (nb + 2) / 3 :=
        Nat.mul_div_cancel' (Nat.dvd_of_mod_eq_zero hdvd)
      have hsmall : (nb + 2) / 3 * 3 - nb ≤ 2 := by omega
      rw [plannerUpdate]
      rw [if_pos ?goodcase]
      case goodcase =>
        constructor
        · exact hmul.ge
        · show plannerImproves _ best = true
          cases best with
          | none => rfl
          | some de =>
            have h3 := hbest de rfl
            simp only [plannerImproves, decide_eq_true_eq]
            simp only [hmul]
            omega
      · rfl
    · rw [plannerLoop, if_neg hdvd, largestDivisorLE, if_neg hdvd]
      have hn : 0 < n := by
        rcases Nat.eq_zero_or_pos n with h0 | h0
        · subst h0; exact absurd (Nat.mod_one ((nb + 2) / 3)) hdvd
        · exact h0
      refine ih _ hn ?_
      intro de hde
      rw [plannerUpdate] at hde
      split at hde
      · rename_i hcond
        cases hde
        show 3 ≤ (n + 1) * ((nb + 2) / 3 / (n + 1) + 1) * 3 - nb
        have hge := lt_mul_div_succ ((nb + 2) / 3) (n + 1) (Nat.succ_pos n)
        have h3P : nb ≤ 3 * ((nb + 2) / 3) := by omega
        set A := (n + 1) * ((nb + 2) / 3 / (n + 1) + 1) with hA
        omega
      · exact hbest de hde

/-! ## Encoder lemmas -/

/-- Reference placement: group number `p` is written at column `p % w`,
row `p / w`, and the following groups at the following raster positions. -/
def placeAll (w : Nat) : List (List Nat) → Nat → Grid → Grid
  | [], _, g => g
  | b :: bs, p, g => placeAll w bs (p + 1) (setPixel g (p % w) (p / w) (colorOf b))

lemma length_setPixel (g : Grid) (col row : Nat) (p : Pixel) :
    (setPixel g col row p).length = g.length := by
  simp [setPixel]

lemma rows_setPixel (w : Nat) (g : Grid) (col row : Nat) (p : Pixel)
    (hrows : ∀ r ∈ g, r.length = w) (hrow : row < g.length) :
    ∀ r ∈ setPixel g col row p, r.length = w := by
  intro r hr
  rcases List.mem_or_eq_of_mem_set hr with hmem | heq
  · exact hrows r hmem
  · subst heq
    rw [List.length_set, List.getD_eq_getElem _ _ hrow]
    exact hrows _ (List.getElem_mem hrow)

lemma flatten_length_of_rows (w : Nat) (g : Grid) (hrows : ∀ r ∈ g, r.length = w) :
    g.flatten.length = w * g.length := by
  induction g with
  | nil => simp
  | cons r rest ih =>
    rw [List.flatten_cons, List.length_append, hrows r (List.mem_cons_self r rest),
      ih (fun x hx => hrows x (List.mem_cons_of_mem r hx)), List.length_cons,
      Nat.mul_succ]
    omega

lemma flatten_setPixel (w : Nat) (g : Grid) (col : Nat) (p : Pixel)
    (hcol : col < w) :
    ∀ row, (∀ r ∈ g, r.length = w) → row < g.length →
      (setPixel g col row p).flatten = g.flatten.set (row * w + col) p := by
  induction g with
  | nil => intro row _ hrow; simp at hrow
  | cons r rest ih =>
    intro row hrows hrow
    cases row with
    | zero =>
      have hr : r.length = w := hrows r (List.mem_cons_self r rest)
      rw [show (0 : Nat) * w + col = col from by omega]
      show ((r.set col p) :: rest).flatten = ((r :: rest).flatten).set col p
      rw [List.flatten_cons, List.flatten_cons, List.set_append,
        if_pos (by omega)]
    | succ row' =>
      have hr : r.length = w := hrows r (List.mem_cons_self r rest)
      show (r :: setPixel rest col row' p).flatten
          = ((r :: rest).flatten).set ((row' + 1) * w + col) p
      rw [List.flatten_cons, List.flatten_cons,
        ih row' (fun x hx => hrows x (List.mem_cons_of_mem r hx))
          (by simpa using Nat.lt_of_succ_lt_succ hrow),
        List.set_append, if_neg (by rw [hr, Nat.succ_mul]; omega), hr,
        show (row' + 1) * w + col - w = row' * w + col by rw [Nat.succ_mul]; omega]

lemma length_placeAll (w : Nat) :
    ∀ (gs : List (List Nat)) (p : Nat) (g : Grid),
      (placeAll w gs p g).length = g.length := by
  intro gs
  induction gs with
  | nil => intro p g; rfl
  | cons b bs ih => intro p g; rw [placeAll, ih, length_setPixel]

lemma placeAll_flatten (w : Nat) (hw : 0 < w) :
    ∀ (gs : List (List Nat)) (p : Nat) (g : Grid),
      (∀ r ∈ g, r.length = w) → p + gs.length ≤ w * g.length →
      (placeAll w gs p g).flatten
        = g.flatten.take p ++ gs.map colorOf ++ g.flatten.drop (p + gs.length) := by
  intro gs
  induction gs with
  | nil =>
    intro p g hrows hcap
    simp [placeAll]
  | cons b bs ih =>
    intro p g hrows hcap
    have hrowlt : p / w < g.length := by
      rw [Nat.div_lt_iff_lt_mul hw, Nat.mul_comm]
      simp only [List.length_cons] at hcap
      omega
    have hcollt : p % w < w := Nat.mod_lt _ hw
    have hflatlen : g.flatten.length = w * g.length := flatten_length_of_rows w g hrows
    have hrows' := rows_setPixel w g (p % w) (p / w) (colorOf b) hrows hrowlt
    rw [placeAll,
      ih (p + 1) _ hrows' (by rw [length_setPixel]; simp only [List.length_cons] at hcap; omega),
      flatten_setPixel w g (p % w) (colorOf b) hcollt (p / w) hrows hrowlt,
      Nat.div_add_mod' p w]
    have hp : p < g.flatten.length := by
      rw [hflatlen]; simp only [List.length_cons] at hcap; omega
    rw [List.set_eq_take_cons_drop _ hp]
    have hlen : (g.flatten.take p).length = p := by
      rw [List.length_take]; omega
    rw [show p + 1 = (g.flatten.take p).length + 1 by omega, List.take_append,
      show (g.flatten.take p).length + 1 + bs.length
        = (g.flatten.take p).length + (1 + bs.length) by omega, List.drop_append,
      show (1 : Nat) + bs.length = bs.length + 1 by omega, List.drop_succ_cons,
      List.drop_drop, List.take_succ_cons, List.take_zero]
    simp only [List.cons_append, List.append_assoc, List.map_cons, List.nil_append,
      List.length_cons]
    rw [hlen, show p + 1 + bs.length = p + (bs.length + 1) from by omega]

/-- The encode loop agrees with the reference placement whenever the groups
fit into the grid.  The state `(colNext, row)` before a group is processed
determines its raster index `p = row * w + colNext` (a wrap, `colNext = w`,
moves the cursor to raster index `(row + 1) * w`, the same number). -/
lemma encodeLoop_eq_placeAll (w h : Nat) (hw : 0 < w) :
    ∀ (gs : List (List Nat)) (c r : Nat) (g : Grid),
      c ≤ w → r * w + c + gs.length ≤ w * h →
      encodeLoop w h gs c r g = some (placeAll w gs (r * w + c) g) := by
  intro gs
  induction gs with
  | nil => intro c r g _ _; rfl
  | cons b bs ih =>
    intro c r g hc hcap
    simp only [List.length_cons] at hcap
    by_cases hcw : w ≤ c
    · have hceq : c = w := le_antisymm hc hcw
      rw [hceq] at hcap ⊢
      have hrow : r + 1 < h := by
        have h2 : (r + 1) * w < h * w := by
          rw [Nat.succ_mul, Nat.mul_comm h w]; omega
        exact Nat.lt_of_mul_lt_mul_right h2
      have hp : r * w + w = (r + 1) * w := (Nat.succ_mul r w).symm
      have hmod : ((r + 1) * w) % w = 0 := Nat.mul_mod_left (r + 1) w
      have hdiv : ((r + 1) * w) / w = r + 1 := by
        rw [Nat.mul_comm]; exact Nat.mul_div_cancel_left _ hw
      conv_rhs => rw [hp, placeAll, hmod, hdiv]
      simp only [encodeLoop]
      rw [if_pos (le_refl w), if_neg (by omega), if_neg (by omega)]
      exact ih 1 (r + 1) _ (by omega) (by rw [Nat.succ_mul]; omega)
    · have hclt : c < w := by omega
      have hrlt : r < h := by
        have h2 : r * w < h * w := by rw [Nat.mul_comm h w]; omega
        exact Nat.lt_of_mul_lt_mul_right h2
      have hmod : (r * w + c) % w = c := by
        rw [Nat.mul_comm, Nat.mul_add_mod]; exact Nat.mod_eq_of_lt hclt
      have hdiv : (r * w + c) / w = r := by
        rw [Nat.mul_comm, Nat.mul_add_div hw, Nat.div_eq_of_lt hclt]
        omega
      conv_rhs => rw [placeAll, hmod, hdiv]
      simp only [encodeLoop]
      rw [if_neg hcw, if_neg (by omega)]
      exact ih (c + 1) r _ (by omega) (by omega)

/-- The encode loop raises the capacity exception when the groups do not
fit into the grid. -/
lemma encodeLoop_none (w h : Nat) (hw : 0 < w) (hh : 0 < h) :
    ∀ (gs : List (List Nat)) (c r : Nat) (g : Grid),
      c ≤ w → (0 < c ∨ (c = 0 ∧ r = 0)) →
      r * w + c ≤ w * h → w * h < r * w + c + gs.length →
      encodeLoop w h gs c r g = none := by
  intro gs
  induction gs with
  | nil =>
    intro c r g _ _ hle hgt
    simp only [List.length_nil, Nat.add_zero] at hgt
    omega
  | cons b bs ih =>
    intro c r g hc hstate hle hgt
    simp only [List.length_cons] at hgt
    by_cases hcw : w ≤ c
    · have hceq : c = w := le_antisymm hc hcw
      rw [hceq] at hle hgt
      simp only [encodeLoop]
      rw [if_pos hcw]
      by_cases hrow : h ≤ r + 1
      · rw [if_pos hrow]
      · rw [if_neg hrow, if_neg hrow]
        refine ih 1 (r + 1) _ (by omega) (by omega) ?_ (by rw [Nat.succ_mul]; omega)
        have h1 : r + 2 ≤ h := by omega
        have h2 : (r + 2) * w ≤ h * w := Nat.mul_le_mul_right w h1
        have h3 : (r + 2) * w = (r + 1) * w + w := Nat.succ_mul (r + 1) w
        have h4 : (r + 1) * w = r * w + w := Nat.succ_mul r w
        rw [Nat.mul_comm h w] at h2
        omega
    · have hclt : c < w := by omega
      simp only [encodeLoop]
      rw [if_neg hcw]
      refine ih (c + 1) r _ (by omega) (by omega) ?_ (by omega)
      -- r * w + (c + 1) ≤ w * h: equality r * w + c = w * h is impossible here
      rcases Nat.lt_or_ge (r * w + c) (w * h) with hlt | hge
      · omega
      · exfalso
        have heq : r * w + c = w * h := by omega
        rcases hstate with hcpos | ⟨hc0, hr0⟩
        · rcases Nat.lt_or_ge r h with hrh | hrh
          · have h2 : (r + 1) * w ≤ h * w := Nat.mul_le_mul_right w hrh
            rw [Nat.succ_mul, Nat.mul_comm h w] at h2
            omega
          · have h2 : h * w ≤ r * w := Nat.mul_le_mul_right w hrh
            rw [Nat.mul_comm h w] at h2
            omega
        · rw [hc0, hr0] at heq
          have hpos : 0 < w * h := Nat.mul_pos hw hh
          omega

lemma rows_placeAll (w : Nat) (hw : 0 < w) :
    ∀ (gs : List (List Nat)) (p : Nat) (g : Grid),
      (∀ r ∈ g, r.length = w) → p + gs.length ≤ w * g.length →
      ∀ r ∈ placeAll w gs p g, r.length = w := by
  intro gs
  induction gs with
  | nil => intro p g hrows _; exact hrows
  | cons b bs ih =>
    intro p g hrows hcap
    simp only [List.length_cons] at hcap
    have hrowlt : p / w < g.length := by
      rw [Nat.div_lt_iff_lt_mul hw, Nat.mul_comm]; omega
    rw [placeAll]
    exact ih (p + 1) _ (rows_setPixel w g _ _ _ hrows hrowlt)
      (by rw [length_setPixel]; omega)

/-! ## Chunking and grid initialisation lemmas -/

lemma chunk3_length (l : List Nat) : (chunk3 l).length = (l.length + 2) / 3 := by
  induction l using chunk3.induct with
  | case1 => rfl
  | case2 a => simp only [chunk3, List.length_cons, List.length_nil]
  | case3 a b => simp only [chunk3, List.length_cons, List.length_nil]
  | case4 a b c rest ih =>
    simp only [chunk3, List.length_cons, ih]
    omega

/-- The channel values of the encoded groups, in order, are the input bytes
followed by the zeros filling out the last pixel. -/
lemma chunk3_channels (l : List Nat) :
    ((chunk3 l).map (fun b => pixelChannels (colorOf b))).flatten
      = l ++ List.replicate (3 * (chunk3 l).length - l.length) 0 := by
  induction l using chunk3.induct with
  | case1 => rfl
  | case2 a => rfl
  | case3 a b => rfl
  | case4 a b c rest ih =>
    simp only [chunk3, List.map_cons, List.flatten_cons, List.length_cons, ih]
    show [a, b, c] ++ (rest ++ List.replicate (3 * (chunk3 rest).length - rest.length) 0)
        = (a :: b :: c :: rest)
          ++ List.replicate (3 * ((chunk3 rest).length + 1) - (rest.length + 1 + 1 + 1)) 0
    rw [show 3 * ((chunk3 rest).length + 1) - (rest.length + 1 + 1 + 1)
        = 3 * (chunk3 rest).length - rest.length from by omega]
    simp

lemma mkGrid_rows (w h : Nat) : ∀ r ∈ mkGrid w h, r.length = w := by
  intro r hr
  rw [mkGrid] at hr
  rw [List.eq_of_mem_replicate hr, List.length_replicate]

lemma mkGrid_length (w h : Nat) : (mkGrid w h).length = h := by
  rw [mkGrid, List.length_replicate]

lemma mkGrid_flatten (w h : Nat) :
    (mkGrid w h).flatten = List.replicate (h * w) ((0, 0, 0) : Pixel) := by
  induction h with
  | zero => rw [Nat.zero_mul]; rfl
  | succ n ih =>
    rw [mkGrid, List.replicate_succ, List.flatten_cons,
      show (List.replicate n (List.replicate w ((0, 0, 0) : Pixel))).flatten
        = List.replicate (n * w) ((0, 0, 0) : Pixel) from ih,
      show (n + 1) * w = w + n * w from by rw [Nat.succ_mul]; omega,
      List.replicate_add]

/-! ## Encode characterisation -/

/-- When the bytes fit into the grid, the encode loop succeeds and the
committed grid, read in the raster order of the decoder, holds exactly the
input bytes followed by zero padding. -/
lemma encode_channels (B : List Nat) (w h : Nat) (hw : 0 < w)
    (hcap : B.length ≤ w * h * 3) :
    ∃ g, encodeLoop w h (chunk3 B) 0 0 (mkGrid w h) = some g ∧
      gridChannels g = B ++ List.replicate (w * h * 3 - B.length) 0 ∧
      g.length = h ∧ (∀ r ∈ g, r.length = w) := by
  have hk : (chunk3 B).length ≤ w * h := by
    rw [chunk3_length]; omega
  have hn3k : B.length ≤ 3 * (chunk3 B).length := by
    rw [chunk3_length]; omega
  have hloop := encodeLoop_eq_placeAll w h hw (chunk3 B) 0 0 (mkGrid w h)
    (by omega) (by simpa using hk)
  simp only [Nat.zero_mul, Nat.zero_add] at hloop
  refine ⟨placeAll w (chunk3 B) 0 (mkGrid w h), hloop, ?_, ?_, ?_⟩
  · have hflat := placeAll_flatten w hw (chunk3 B) 0 (mkGrid w h) (mkGrid_rows w h)
      (by rw [mkGrid_length]; omega)
    rw [gridChannels_eq, hflat, mkGrid_flatten, List.take_zero, List.nil_append,
      Nat.zero_add, List.drop_replicate, List.map_append, List.flatten_append,
      List.map_map]
    simp only [Function.comp_def]
    rw [chunk3_channels, flatten_map_replicate_zeroPixel, List.append_assoc,
      ← List.replicate_add,
      show 3 * (chunk3 B).length - B.length + 3 * (h * w - (chunk3 B).length)
        = w * h * 3 - B.length from by
          have hcomm : w * h = h * w := Nat.mul_comm w h
          omega]
  · rw [length_placeAll, mkGrid_length]
  · exact rows_placeAll w hw (chunk3 B) 0 (mkGrid w h) (mkGrid_rows w h)
      (by rw [mkGrid_length]; omega)

/-! ## Planner results -/

lemma choose_file_dimensions_auto (n : Nat) (hn : 0 < n) :
    ∃ D, choose_file_dimensions n none false = some (D, (n + 2) / 3 / D) ∧
      0 < D ∧ D ≤ ceilSqrt ((n + 2) / 3) ∧ (n + 2) / 3 % D = 0 ∧
      ∀ d, 0 < d → d ≤ ceilSqrt ((n + 2) / 3) → (n + 2) / 3 % d = 0 → d ≤ D := by
  have hP : 0 < (n + 2) / 3 := by omega
  have hS : 0 < ceilSqrt ((n + 2) / 3) := ceilSqrt_pos _ hP
  have hred : choose_file_dimensions n none false
      = plannerLoop ((n + 2) / 3) n (ceilSqrt ((n + 2) / 3)) none := rfl
  have hloop := plannerLoop_eq n (ceilSqrt ((n + 2) / 3)) none hS
    (fun de h => Option.noConfusion h)
  obtain ⟨h1, h2, h3, h4⟩ := largestDivisorLE_spec ((n + 2) / 3) _ hS
  exact ⟨largestDivisorLE ((n + 2) / 3) (ceilSqrt ((n + 2) / 3)),
    by rw [hred, hloop], h1, h2, h3, h4⟩

/-- Dimensions chosen with no constraints cover the bytes exactly up to the
remainder of the last pixel. -/
lemma choose_auto_capacity (n : Nat) (hn : 0 < n) :
    ∃ w h, choose_file_dimensions n none false = some (w, h) ∧ 0 < w ∧ 0 < h ∧
      w * h = (n + 2) / 3 ∧ n ≤ w * h * 3 := by
  obtain ⟨D, heq, hD, hDS, hDdvd, hmax⟩ := choose_file_dimensions_auto n hn
  have hmul : D * ((n + 2) / 3 / D) = (n + 2) / 3 :=
    Nat.mul_div_cancel' (Nat.dvd_of_mod_eq_zero hDdvd)
  refine ⟨D, (n + 2) / 3 / D, heq, hD, ?_, hmul, ?_⟩
  · rcases Nat.eq_zero_or_pos ((n + 2) / 3 / D) with h0 | h0
    · rw [h0, Nat.mul_zero] at hmul; omega
    · exact h0
  · rw [hmul]; omega

/-- The conditional of lines 93 to 96 (and 99 to 102) computes a ceiling
division. -/
lemma code_ceil_div (P w : Nat) (hw : 0 < w) :
    (if P % w = 0 then P / w else P / w + 1) = (P + (w - 1)) / w := by
  obtain ⟨Q, R, hQR, hR⟩ : ∃ Q R, P = w * Q + R ∧ R < w :=
    ⟨P / w, P % w, (Nat.div_add_mod P w).symm, Nat.mod_lt _ hw⟩
  subst hQR
  rw [Nat.mul_add_div hw, Nat.mul_add_mod, Nat.mod_eq_of_lt hR,
    Nat.div_eq_of_lt hR, Nat.add_zero]
  by_cases h0 : R = 0
  · subst h0
    rw [if_pos rfl]
    rw [show w * Q + 0 + (w - 1) = w * Q + (w - 1) from by omega,
      Nat.mul_add_div hw, Nat.div_eq_of_lt (by omega), Nat.add_zero]
  · rw [if_neg h0]
    rw [show w * Q + R + (w - 1) = w * (Q + 1) + (R - 1) from by
        rw [Nat.mul_succ]; omega,
      Nat.mul_add_div hw, Nat.div_eq_of_lt (by omega), Nat.add_zero]

lemma choose_width_only (n w : Nat) (hw : 0 < w) :
    choose_file_dimensions n (some (some w, none)) false
      = some (w, ((n + 2) / 3 + (w - 1)) / w) := by
  have hred : choose_file_dimensions n (some (some w, none)) false
      = (if w = 0 then none
         else if (n + 2) / 3 % w = 0 then some (w, (n + 2) / 3 / w)
         else some (w, (n + 2) / 3 / w + 1)) := rfl
  rw [hred, if_neg (by omega), ← code_ceil_div ((n + 2) / 3) w hw]
  by_cases h : (n + 2) / 3 % w = 0
  · rw [if_pos h, if_pos h]
  · rw [if_neg h, if_neg h]

lemma choose_height_only (n h : Nat) (hh : 0 < h) :
    choose_file_dimensions n (some (none, some h)) false
      = some (((n + 2) / 3 + (h - 1)) / h, h) := by
  have hred : choose_file_dimensions n (some (none, some h)) false
      = (if h = 0 then none
         else if (n + 2) / 3 % h = 0 then some ((n + 2) / 3 / h, h)
         else some ((n + 2) / 3 / h + 1, h)) := rfl
  rw [hred, if_neg (by omega), ← code_ceil_div ((n + 2) / 3) h hh]
  by_cases hc : (n + 2) / 3 % h = 0
  · rw [if_pos hc, if_pos hc]
  · rw [if_neg hc, if_neg hc]

lemma choose_file_dimensions_square (n : Nat)
    (dims : Option (Option Nat × Option Nat))
    (hdims : ∀ w h, dims ≠ some (some w, some h)) :
    choose_file_dimensions n dims true
      = some (ceilSqrt ((n + 2) / 3), ceilSqrt ((n + 2) / 3)) := by
  rcases dims with _ | ⟨wo, ho⟩
  · rfl
  rcases wo with _ | w <;> rcases ho with _ | h
  · rfl
  · rfl
  · rfl
  · exact absurd rfl (hdims w h)

/-- A ceiling division times its divisor covers the dividend. -/
lemma le_mul_ceil_div (P w : Nat) (hw : 0 < w) :
    P ≤ w * ((P + (w - 1)) / w) := by
  rw [← code_ceil_div P w hw]
  by_cases h : P % w = 0
  · rw [if_pos h, Nat.mul_div_cancel' (Nat.dvd_of_mod_eq_zero h)]
  · rw [if_neg h]
    have := lt_mul_div_succ P w hw
    omega

/-! ## Raster index lemmas -/

lemma flatten_pixelChannels_getD (ps : List Pixel) :
    ∀ j ch, j < ps.length → ch < 3 →
      ((ps.map pixelChannels).flatten).getD (3 * j + ch) 0
        = (pixelChannels (ps.getD j (0, 0, 0))).getD ch 0 := by
  induction ps with
  | nil => intro j ch hj _; simp at hj
  | cons p rest ih =>
    intro j ch hj hch
    cases j with
    | zero =>
      rw [List.map_cons, List.flatten_cons, Nat.mul_zero, Nat.zero_add,
        List.getD_append _ _ _ _ (by simp [pixelChannels]; omega)]
      rfl
    | succ j' =>
      rw [List.map_cons, List.flatten_cons,
        show 3 * (j' + 1) + ch = (pixelChannels p).length + (3 * j' + ch) from by
          simp [pixelChannels]; omega,
        List.getD_append_right _ _ _ _ (by omega), Nat.add_sub_cancel_left]
      exact ih j' ch (by simpa using hj) hch

lemma flatten_grid_getD (w : Nat) (g : Grid) (hrows : ∀ r ∈ g, r.length = w) :
    ∀ ri ci, ri < g.length → ci < w →
      g.flatten.getD (ri * w + ci) (0, 0, 0) = (g.getD ri []).getD ci (0, 0, 0) := by
  induction g with
  | nil => intro ri ci hri _; simp at hri
  | cons row rest ih =>
    intro ri ci hri hci
    have hrow : row.length = w := hrows row (List.mem_cons_self row rest)
    cases ri with
    | zero =>
      rw [List.flatten_cons, Nat.zero_mul, Nat.zero_add,
        List.getD_append _ _ _ _ (by omega)]
      rfl
    | succ ri' =>
      rw [List.flatten_cons,
        show (ri' + 1) * w + ci = row.length + (ri' * w + ci) from by
          rw [hrow, Nat.succ_mul]; omega,
        List.getD_append_right _ _ _ _ (by omega), Nat.add_sub_cancel_left]
      exact ih (fun r hr => hrows r (List.mem_cons_of_mem row hr)) ri' ci
        (by simpa using hri) hci

/-! ## Encode pipeline helpers -/

/-- Whenever the planner result provides enough capacity, the full encode
call commits an image whose raster channel stream is the input plus zero
padding. -/
lemma file_to_png_eq_ok (B : List Nat) (dims : Option (Option Nat × Option Nat))
    (sq : Bool) (w h : Nat) (hw : 0 < w)
    (hcd : choose_file_dimensions B.length dims sq = some (w, h))
    (hcap : B.length ≤ w * h * 3) :
    ∃ g, file_to_png B dims sq = .ok g ∧
      gridChannels g = B ++ List.replicate (w * h * 3 - B.length) 0 ∧
      g.length = h ∧ (∀ r ∈ g, r.length = w) := by
  obtain ⟨g, hloop, hch, hlen, hrows⟩ := encode_channels B w h hw hcap
  exact ⟨g, by simp only [file_to_png, hcd, hloop], hch, hlen, hrows⟩

lemma ok_ne_capacity {x : Except EncodeError Grid} {g : Grid} (hx : x = .ok g) :
    x ≠ .error .capacityExceeded := by
  rw [hx]
  exact fun hc => Except.noConfusion hc

lemma dimfault_ne_capacity {x : Except EncodeError Grid}
    (hx : x = .error .dimensionFault) : x ≠ .error .capacityExceeded := by
  rw [hx]
  intro hc
  injection hc with hc'
  exact EncodeError.noConfusion hc'

lemma rowcol_div (r c w : Nat) (hw : 0 < w) (hc : c < w) : (r * w + c) / w = r := by
  rw [Nat.mul_comm, Nat.mul_add_div hw, Nat.div_eq_of_lt hc]
  omega

lemma rowcol_mod (r c w : Nat) (hc : c < w) : (r * w + c) % w = c := by
  rw [Nat.mul_comm, Nat.mul_add_mod]
  exact Nat.mod_eq_of_lt hc

/-! ## Claim theorems -/

/-- C1 (amended to non empty inputs): for every byte sequence `B` with
`1 ≤ len(B)`, under dimensions chosen by the planner with no explicit
constraints, decoding the encoded image yields `B` with its maximal trailing
run of zero bytes removed, hence exactly `B` when `B` does not end in a zero
byte. -/
theorem C1_round_trip (B : List Nat) (hB : 1 ≤ B.length) :
    ∃ g, file_to_png B none false = .ok g ∧
      png_to_file g = stripTrailingZeros B ∧
      (B.getLast? ≠ some 0 → png_to_file g = B) := by
  obtain ⟨w, h, hcd, hw, hh, hwh, hcap⟩ := choose_auto_capacity B.length hB
  obtain ⟨g, hok, hchan, hlen, hrows⟩ := file_to_png_eq_ok B none false w h hw hcd hcap
  refine ⟨g, hok, ?_, ?_⟩
  · rw [png_to_file_eq_strip, hchan, stripTrailingZeros_append_replicate]
  · intro hlast
    rw [png_to_file_eq_strip, hchan, stripTrailingZeros_append_replicate,
      stripTrailingZeros_eq_self B hlast]

/-- C1, original form, is false at the empty byte sequence: the planner
produces no dimensions, the encode faults, and no image exists whose decode
could return the empty sequence. -/
theorem C1_round_trip_counterexample :
    ¬ ∃ g, file_to_png ([] : List Nat) none false = .ok g ∧
        png_to_file g = stripTrailingZeros [] := by
  rintro ⟨g, hok, -⟩
  rw [show file_to_png ([] : List Nat) none false = .error .dimensionFault from rfl] at hok
  exact Except.noConfusion hok

theorem C1_round_trip_witness :
    ∃ g, file_to_png [1, 2, 3, 0] none false = .ok g ∧
      png_to_file g = stripTrailingZeros [1, 2, 3, 0] ∧
      ([1, 2, 3, 0].getLast? ≠ some 0 → png_to_file g = [1, 2, 3, 0]) :=
  C1_round_trip [1, 2, 3, 0] (by decide)

/-- C2: at byte count `0` with no explicit constraints and no square flag
the planner produces no dimensions at all — the search loop never runs, so
`best_dimensions` is still `None` and line 118 of the source faults
comparing `best_extra_bytes` (also `None`) with `0` — contradicting the
claimed minimal `(1, 1)` grid with `w, h ≥ 1`. -/
theorem C2_planner_faults_on_zero_bytes :
    choose_file_dimensions 0 none false = none := rfl

/-- C3: whenever some divisor `d ≤ ceil(sqrt(ceil(n/3)))` of
`ceil(n/3) = (n + 2) / 3` exists, the planner with no constraints returns
as width a divisor that is the largest such one, with height the exact
quotient. -/
theorem C3_zero_padding_preference (n d : Nat) (hn : 1 ≤ n) (hd : 0 < d)
    (hdS : d ≤ ceilSqrt ((n + 2) / 3)) (hdvd : (n + 2) / 3 % d = 0) :
    ∃ wdt, choose_file_dimensions n none false = some (wdt, (n + 2) / 3 / wdt) ∧
      (n + 2) / 3 % wdt = 0 ∧ wdt ≤ ceilSqrt ((n + 2) / 3) ∧ d ≤ wdt := by
  obtain ⟨D, heq, hD, hDS, hDdvd, hmax⟩ := choose_file_dimensions_auto n hn
  exact ⟨D, heq, hDdvd, hDS, hmax d hd hdS hdvd⟩

theorem C3_zero_padding_preference_witness :
    ∃ wdt, choose_file_dimensions 5 none false = some (wdt, (5 + 2) / 3 / wdt) ∧
      (5 + 2) / 3 % wdt = 0 ∧ wdt ≤ ceilSqrt ((5 + 2) / 3) ∧ 2 ≤ wdt :=
  C3_zero_padding_preference 5 2 (by decide) (by decide) (by decide) (by decide)

/-- C4: under caller supplied explicit dimensions the encoder raises the
capacity exceeded error exactly when `n > width*height*3`, and no other
planning path ever produces that error. -/
theorem C4_capacity_exceeded_iff (B : List Nat) (w h : Nat) (hw : 0 < w) (hh : 0 < h) :
    (file_to_png B (some (some w, some h)) false = .error .capacityExceeded
      ↔ w * h * 3 < B.length) ∧
    (∀ dims square, (∀ wdt hgt, dims ≠ some (some wdt, some hgt)) →
      file_to_png B dims square ≠ .error .capacityExceeded) := by
  constructor
  · constructor
    · intro herr
      by_contra hle
      push_neg at hle
      obtain ⟨g, hok, -, -, -⟩ :=
        file_to_png_eq_ok B (some (some w, some h)) false w h hw rfl hle
      rw [hok] at herr
      exact Except.noConfusion herr
    · intro hgt
      have hk : w * h < 0 * w + 0 + (chunk3 B).length := by
        rw [chunk3_length]; omega
      have hnone := encodeLoop_none w h hw hh (chunk3 B) 0 0 (mkGrid w h)
        (by omega) (Or.inr ⟨rfl, rfl⟩) (by omega) hk
      simp only [file_to_png,
        show choose_file_dimensions B.length (some (some w, some h)) false
          = some (w, h) from rfl, hnone]
  · intro dims square hdims
    cases hB : B with
    | nil =>
      cases hcd : choose_file_dimensions ([] : List Nat).length dims square with
      | none => exact dimfault_ne_capacity (by simp only [file_to_png, hcd])
      | some wh =>
        rcases wh with ⟨wdt, hgt⟩
        exact ok_ne_capacity (g := mkGrid wdt hgt)
          (by simp only [file_to_png, hcd, chunk3, encodeLoop])
    | cons b0 Brest =>
      have hn : 0 < (b0 :: Brest).length := by simp
      cases square with
      | true =>
        have hcd := choose_file_dimensions_square (b0 :: Brest).length dims hdims
        have hS : 0 < ceilSqrt (((b0 :: Brest).length + 2) / 3) :=
          ceilSqrt_pos _ (by omega)
        have hsq := le_ceilSqrt_sq (((b0 :: Brest).length + 2) / 3)
        obtain ⟨g, hok, -, -, -⟩ := file_to_png_eq_ok (b0 :: Brest) dims true
          (ceilSqrt (((b0 :: Brest).length + 2) / 3))
          (ceilSqrt (((b0 :: Brest).length + 2) / 3)) hS hcd (by omega)
        exact ok_ne_capacity hok
      | false =>
        rcases dims with _ | ⟨wo, ho⟩
        · obtain ⟨wdt, hgt, hcd, hwdt, hhgt, hwh, hcap⟩ :=
            choose_auto_capacity (b0 :: Brest).length hn
          obtain ⟨g, hok, -, -, -⟩ :=
            file_to_png_eq_ok (b0 :: Brest) none false wdt hgt hwdt hcd hcap
          exact ok_ne_capacity hok
        rcases wo with _ | wdt <;> rcases ho with _ | hgt
        · exact dimfault_ne_capacity rfl
        · cases hgt with
          | zero => exact dimfault_ne_capacity rfl
          | succ hgt' =>
            have hcd := choose_height_only (b0 :: Brest).length (hgt' + 1)
              (Nat.succ_pos hgt')
            have hcov := le_mul_ceil_div (((b0 :: Brest).length + 2) / 3)
              (hgt' + 1) (Nat.succ_pos hgt')
            rcases Nat.eq_zero_or_pos
                ((((b0 :: Brest).length + 2) / 3 + (hgt' + 1 - 1)) / (hgt' + 1))
              with hw0 | hwpos
            · exfalso
              rw [hw0, Nat.mul_zero] at hcov
              omega
            · obtain ⟨g, hok, -, -, -⟩ := file_to_png_eq_ok (b0 :: Brest)
                (some (none, some (hgt' + 1))) false _ (hgt' + 1) hwpos hcd
                (by
                  have hcomm : (hgt' + 1)
                        * ((((b0 :: Brest).length + 2) / 3 + (hgt' + 1 - 1)) / (hgt' + 1))
                      = ((((b0 :: Brest).length + 2) / 3 + (hgt' + 1 - 1)) / (hgt' + 1))
                        * (hgt' + 1) := Nat.mul_comm _ _
                  omega)
              exact ok_ne_capacity hok
        · cases wdt with
          | zero => exact dimfault_ne_capacity rfl
          | succ wdt' =>
            have hcd := choose_width_only (b0 :: Brest).length (wdt' + 1)
              (Nat.succ_pos wdt')
            have hcov := le_mul_ceil_div (((b0 :: Brest).length + 2) / 3)
              (wdt' + 1) (Nat.succ_pos wdt')
            obtain ⟨g, hok, -, -, -⟩ := file_to_png_eq_ok (b0 :: Brest)
              (some (some (wdt' + 1), none)) false (wdt' + 1) _
              (Nat.succ_pos wdt') hcd (by omega)
            exact ok_ne_capacity hok
        · exact absurd rfl (hdims wdt hgt)

theorem C4_capacity_exceeded_iff_witness :
    file_to_png (List.replicate 10 9) (some (some 1, some 1)) false
      = .error .capacityExceeded :=
  (C4_capacity_exceeded_iff (List.replicate 10 9) 1 1 (by decide)
    (by decide)).1.mpr (by decide)

/-- C5: when `B` fits a `(w, h)` grid, byte `i` is stored at pixel
`(i/3 mod w, (i/3)/w)` in channel `i mod 3`, every channel past the bytes
actually read is zero (the tail of the last group and all unwritten pixels),
and the decoder reads exactly the channel stream the encoder wrote, in the
same raster order (columns fastest, then rows). -/
theorem C5_traversal_symmetry (B : List Nat) (w h : Nat) (hw : 0 < w)
    (hcap : B.length ≤ w * h * 3) :
    ∃ g, file_to_png B (some (some w, some h)) false = .ok g ∧
      (∀ i, i < B.length →
        (pixelChannels ((g.getD (i / 3 / w) []).getD (i / 3 % w) (0, 0, 0))).getD (i % 3) 0
          = B.getD i 0) ∧
      (∀ i, B.length ≤ i → (gridChannels g).getD i 0 = 0) ∧
      gridChannels g = B ++ List.replicate (w * h * 3 - B.length) 0 ∧
      png_to_file g = decodeChannels (gridChannels g) 0 := by
  obtain ⟨g, hok, hchan, hlen, hrows⟩ :=
    file_to_png_eq_ok B (some (some w, some h)) false w h hw rfl hcap
  refine ⟨g, hok, ?_, ?_, hchan, rfl⟩
  · intro i hi
    obtain ⟨j, ch, hch, hieq⟩ : ∃ j ch, ch < 3 ∧ i = 3 * j + ch :=
      ⟨i / 3, i % 3, by omega, by omega⟩
    subst hieq
    obtain ⟨ri, ci, hci, hjeq⟩ : ∃ ri ci, ci < w ∧ j = ri * w + ci :=
      ⟨j / w, j % w, Nat.mod_lt _ hw, (Nat.div_add_mod' j w).symm⟩
    subst hjeq
    rw [show (3 * (ri * w + ci) + ch) / 3 = ri * w + ci from by omega,
      show (3 * (ri * w + ci) + ch) % 3 = ch from by omega,
      rowcol_div ri ci w hw hci, rowcol_mod ri ci w hci]
    have hjlt : ri * w + ci < w * h := by omega
    have hrilt : ri < h := by
      rcases Nat.lt_or_ge ri h with hlt | hge
      · exact hlt
      · exfalso
        have hge2 : h * w ≤ ri * w := Nat.mul_le_mul_right w hge
        rw [Nat.mul_comm h w] at hge2
        omega
    have hgrid := flatten_grid_getD w g hrows ri ci (by rw [hlen]; exact hrilt) hci
    have hpix := flatten_pixelChannels_getD g.flatten (ri * w + ci) ch
      (by rw [flatten_length_of_rows w g hrows, hlen]; omega) hch
    rw [← hgrid, ← hpix, ← gridChannels_eq, hchan,
      List.getD_append _ _ _ _ hi]
  · intro i hi
    rw [hchan, List.getD_append_right _ _ _ _ hi, List.getD_eq_getElem?_getD,
      List.getElem?_replicate]
    split
    · rfl
    · rfl

theorem C5_traversal_symmetry_witness :
    ∃ g, file_to_png [1, 2, 3, 4, 5] (some (some 2, some 1)) false = .ok g ∧
      (∀ i, i < [1, 2, 3, 4, 5].length →
        (pixelChannels ((g.getD (i / 3 / 2) []).getD (i / 3 % 2) (0, 0, 0))).getD (i % 3) 0
          = [1, 2, 3, 4, 5].getD i 0) ∧
      (∀ i, [1, 2, 3, 4, 5].length ≤ i → (gridChannels g).getD i 0 = 0) ∧
      gridChannels g = [1, 2, 3, 4, 5]
        ++ List.replicate (2 * 1 * 3 - [1, 2, 3, 4, 5].length) 0 ∧
      png_to_file g = decodeChannels (gridChannels g) 0 :=
  C5_traversal_symmetry [1, 2, 3, 4, 5] 2 1 (by decide) (by decide)

/-- C6: the image committed to the output is byte for byte identical with
and without the Lanczos flag: the resize of lines 166 to 177 happens only
after `img.save` at line 163 and its result is discarded. -/
theorem C6_resize_flag_inert (resize : Grid → Grid) (B : List Nat)
    (dims : Option (Option Nat × Option Nat)) (square flag : Bool) :
    (file_to_png_with_resize resize B dims square flag).map Prod.fst
      = (file_to_png_with_resize resize B dims square false).map Prod.fst := by
  rw [file_to_png_with_resize, file_to_png_with_resize]
  cases file_to_png B dims square with
  | error e => rfl
  | ok g => rfl

/-- C7: a pixel grid whose channel values are all zero decodes to the empty
byte sequence — every zero only grows the pending zero run, which is
discarded at traversal end. -/
theorem C7_all_zero_decodes_empty (g : Grid)
    (hzero : ∀ c ∈ gridChannels g, c = 0) : png_to_file g = [] := by
  rw [png_to_file_eq_strip, List.eq_replicate_of_mem hzero,
    stripTrailingZeros_replicate_zero]

/-- Encoding ten zero bytes gives the all black 2 by 2 image the planner
chose, and decoding it yields the empty byte sequence. -/
theorem C7_all_zero_decodes_empty_witness :
    file_to_png (List.replicate 10 0) none false = .ok (mkGrid 2 2) ∧
      png_to_file (mkGrid 2 2) = [] :=
  ⟨by decide, C7_all_zero_decodes_empty (mkGrid 2 2) (by decide)⟩

/-- C8: with only a width the planner keeps it and takes the ceiling
division for the height, symmetrically with only a height; the concrete
width 1 scenario for 10 bytes yields `(1, 4)` and the ten bytes encode
without a capacity error. -/
theorem C8_single_constraint_planning (n w h : Nat) (hw : 0 < w) (hh : 0 < h) :
    choose_file_dimensions n (some (some w, none)) false
        = some (w, ((n + 2) / 3 + (w - 1)) / w) ∧
      choose_file_dimensions n (some (none, some h)) false
        = some (((n + 2) / 3 + (h - 1)) / h, h) ∧
      ∃ g, file_to_png (List.replicate 10 9) (some (some 1, none)) false = .ok g := by
  refine ⟨choose_width_only n w hw, choose_height_only n h hh, ?_⟩
  obtain ⟨g, hok, -, -, -⟩ := file_to_png_eq_ok (List.replicate 10 9)
    (some (some 1, none)) false 1 4 (by decide) (by decide) (by decide)
  exact ⟨g, hok⟩

theorem C8_single_constraint_planning_witness :
    choose_file_dimensions 10 (some (some 1, none)) false = some (1, 4) :=
  (C8_single_constraint_planning 10 1 1 (by decide) (by decide)).1

/-- C9: with no constraints and `n ≥ 1` the planner lands on a divisor of
the pixel count, so the chosen grid has exactly `ceil(n/3)` pixels and the
byte padding is at most 2 — a non divisor candidate is never returned. -/
theorem C9_exact_pixel_count (n : Nat) (hn : 1 ≤ n) :
    ∃ w h, choose_file_dimensions n none false = some (w, h) ∧
      w * h = (n + 2) / 3 ∧ n ≤ w * h * 3 ∧ w * h * 3 ≤ n + 2 := by
  obtain ⟨w, h, hcd, hw, hh, hwh, hcap⟩ := choose_auto_capacity n hn
  exact ⟨w, h, hcd, hwh, hcap, by rw [hwh]; omega⟩

theorem C9_exact_pixel_count_witness :
    ∃ w h, choose_file_dimensions 7 none false = some (w, h) ∧
      w * h = (7 + 2) / 3 ∧ 7 ≤ w * h * 3 ∧ w * h * 3 ≤ 7 + 2 :=
  C9_exact_pixel_count 7 (by decide)

/-- C10: the decoder never emits a byte stream ending in a zero byte: zero
channels are only written right before a later non zero channel, and a
trailing run is discarded. -/
theorem C10_no_trailing_zero_output (g : Grid) :
    (png_to_file g).getLast? ≠ some 0 := by
  rw [png_to_file_eq_strip]
  exact stripTrailingZeros_getLast? _

end Bin2png
